import Mathlib

/-!
Verification of the `common-iface` utility (`main.go`).

The program resolves named Go types from command-line arguments, normalizes
each to its pointer form when that may enlarge the method set, computes for
each type a name-to-signature map (restricted to exported methods unless the
`-private` flag is set), intersects those maps keyed by method name with
`types.Identical` as the equality on signatures, and prints the result as a
structural interface type, optionally preceded by a header comment and with
per-method doc comments.

Shallow embedding conventions:
* Go signatures are quotiented by `types.Identical` (an equivalence relation),
  so a signature is modelled as an opaque identifier `Sig := Nat` and
  `types.Identical` becomes equality.
* The host type-checker (`go/types`, `golang.org/x/tools/go/loader`) is an
  oracle: an `Env` supplies the method set of each type, the result of name
  lookups, doc comments, and the textual rendering of signatures and types.
* Go maps keyed by `string` are modelled as association lists with unique
  keys (`minsert` overwrites); map iteration followed by `sort.Strings`
  is modelled by sorting the key list.
-/

/-- A `go/types` signature, quotiented by `types.Identical`:
the program only ever compares signatures with `types.Identical`,
so the model identifies identical signatures. -/
abbrev Sig := Nat

/-- The `fn` struct of `main.go` (lines 224-227): a method signature together
with the `types.Object` that declared it (modelled by an opaque id used to
look up doc comments). -/
structure fn where
  Signature : Sig
  Obj : Nat
deriving DecidableEq

/-- One entry of a `types.MethodSet` (a `*types.Selection`): the method name
(`method.Obj().Name()`), its signature (`method.Type()`), and the declaring
object (`method.Obj()`). -/
structure MethodSel where
  name : String
  sig : Sig
  obj : Nat
deriving DecidableEq

/-- Go types as the program observes them: a type is either a
`*types.Pointer` with an element type, or some other type (`*types.Named`
in practice, since resolution rejects everything else) carrying an opaque
id and whether `types.IsInterface` holds of it. -/
inductive GoType where
  | pointer (elem : GoType)
  | named (id : Nat) (ifaceFlag : Bool)
deriving DecidableEq

/-- The `_, isPtr := t.(*types.Pointer)` test of `main.go` line 109. -/
def GoType.isPtr : GoType → Bool
  | .pointer _ => true
  | .named _ _ => false

/-- `types.IsInterface`: true for a named type whose underlying type is an
interface; always false for a pointer type. -/
def GoType.isIfaceType : GoType → Bool
  | .pointer _ => false
  | .named _ b => b

/-- Lines 108-112 of `main.go`: wrap the type in a pointer if it might
enlarge the method set, i.e. unless it already is a pointer or is an
interface type. -/
def normalizeType (t : GoType) : GoType :=
  if !t.isPtr && !t.isIfaceType then GoType.pointer t else t

/-- `unicode.IsUpper`, modelled exactly on the Basic Latin and Latin-1
Supplement blocks: the ASCII upper-case letters plus U+00C0..U+00D6 and
U+00D8..U+00DE (the Latin-1 upper-case letters; U+00D7 is the
multiplication sign). Upper-case letters beyond Latin-1 are not modelled. -/
def isUpperGo (c : Char) : Bool :=
  c.isUpper || (decide ('À' ≤ c) && decide (c ≤ 'Ö')) || (decide ('Ø' ≤ c) && decide (c ≤ 'Þ'))

/-- `ast.IsExported`: `unicode.IsUpper` of the first character of the name
(`isUpperGo`). -/
def isExported (s : String) : Bool :=
  match s.data with
  | [] => false
  | c :: _ => isUpperGo c

/-- Model of a Go `map[string]fn`: an association list with unique keys. -/
abbrev Smap := List (String × fn)

/-- Go map assignment `m[k] = v`: overwrite the binding of `k` if present,
otherwise add it. -/
def minsert (m : Smap) (k : String) (v : fn) : Smap :=
  match m with
  | [] => [(k, v)]
  | (k0, v0) :: rest => if k0 = k then (k, v) :: rest else (k0, v0) :: minsert rest k v

/-- Lines 114-124 of `main.go`: build the `sigs` map of one type from its
method set, keeping a method iff the `-private` flag is set or its name is
exported. -/
def sigsOf (priv : Bool) (ms : List MethodSel) : Smap :=
  ms.foldl
    (fun m meth =>
      if priv || isExported meth.name then minsert m meth.name ⟨meth.sig, meth.obj⟩ else m)
    []

/-- Lines 130-135 of `main.go`: remove from `common` every method that the
later type's `sigs` map lacks or binds to a non-identical signature; the
surviving entries keep the value already in `common`. -/
def intersectStep (com sigs : Smap) : Smap :=
  com.filter fun e =>
    match sigs.lookup e.1 with
    | some s => s.Signature = e.2.Signature
    | none => false

/-- Lines 106-137 of `main.go`: the common-method map. The first type's
`sigs` map is the initial value of `common`; each later type intersects it.
Each type is pointer-normalized (line 108-112) before its method set is
taken; `msOf` is the `types.NewMethodSet` oracle. -/
def commonOf (priv : Bool) (msOf : GoType → List MethodSel) (typs : List GoType) : Smap :=
  match typs with
  | [] => []
  | t :: ts =>
    ts.foldl
      (fun com t2 => intersectStep com (sigsOf priv (msOf (normalizeType t2))))
      (sigsOf priv (msOf (normalizeType t)))

/-! ### Lexicographic string order (Go `sort.Strings`, i.e. `<` on strings) -/

/-- Strict lexicographic order on character lists. For valid UTF-8, Go's
byte-wise string comparison agrees with this code-point comparison. -/
def listLt : List Char → List Char → Bool
  | [], [] => false
  | [], _ :: _ => true
  | _ :: _, [] => false
  | a :: as, b :: bs => if a = b then listLt as bs else decide (a < b)

/-- Go `a < b` on strings. -/
def strLt (a b : String) : Bool := listLt a.data b.data

/-- Go `a <= b` on strings. -/
def strLe (a b : String) : Bool := !strLt b a

/-- Lines 139-144 of `main.go`: collect the keys of `common` and sort them
ascending (`sort.Strings`); modelled by insertion sort w.r.t. `strLe`. -/
def sortedNames (m : Smap) : List String :=
  List.insertionSort (fun a b => strLe a b = true) (m.map (·.1))

/-! ### Argument parsing (lines 72-82 of `main.go`) -/

/-- `strings.LastIndexByte`-style search on character lists: index of the
last occurrence of `c`, if any. (`'.'` is a single UTF-8 byte, so the byte
index found by Go identifies the same split point as this character index.) -/
def lastIndexOf : List Char → Char → Option Nat
  | [], _ => none
  | x :: xs, c =>
    match lastIndexOf xs c with
    | some i => some (i + 1)
    | none => if x = c then some 0 else none

/-- The `%q` verb of `log.Fatalf`, modelled as plain quoting. -/
def quoteStr (s : String) : String := "\"" ++ s ++ "\""

/-- Lines 72-78 of `main.go` for one argument: split at the last `'.'`; the
program dies (`none`) when there is no `'.'` or it is the first character
(`idx < 1`). -/
def parseArg (arg : String) : Option (String × String) :=
  match lastIndexOf arg.data '.' with
  | none => none
  | some 0 => none
  | some (i + 1) =>
    some (String.mk (arg.data.take (i + 1)), String.mk (arg.data.drop (i + 2)))

/-- The argument loop of lines 72-82: the first malformed argument aborts
with the `Expected [pkg].[type]` fatal message. -/
def parseArgs : List String → Except String (List (String × String))
  | [] => .ok []
  | arg :: rest =>
    match parseArg arg with
    | none => .error ("Expected [pkg].[type], not " ++ quoteStr arg)
    | some pr => do
      let tail ← parseArgs rest
      .ok (pr :: tail)

/-! ### Type resolution (lines 84-103 of `main.go`) -/

/-- What `pkg.Pkg.Scope().Lookup(name)` followed by the `*types.Named`
assertion can observe: the name is missing, bound to something that is not
a declared type, or bound to a named type. -/
inductive ResolveOutcome where
  | missing
  | notNamed (desc : String)
  | namedType (t : GoType)
deriving DecidableEq

/-- The flags of `main.go` (lines 53-55): `-comments`, `-header`,
`-private`. -/
structure Flags where
  comments : Bool
  header : Bool
  priv : Bool

/-- The host-language oracle: everything the program obtains from
`go/loader`, `go/types`, `go/ast`, `go/format` and `fmt`. -/
structure Env where
  /-- The error of `conf.Load()`, if any. -/
  loadErr : Option String
  /-- Scope lookup plus the named-type assertion, per `(pkg, name)`. -/
  lookup : String → String → ResolveOutcome
  /-- `types.NewMethodSet`. -/
  msOf : GoType → List MethodSel
  /-- The doc-comment lines the AST walk of lines 156-176 extracts for a
  method object (empty when it finds none). -/
  docOf : Nat → List String
  /-- `types.TypeString` of a signature (starts with `"func"`). -/
  sigStr : Sig → String
  /-- `fmt`-style `%v` rendering of a type. -/
  typeStr : GoType → String
  /-- `format.Source`; `none` models a formatting error (source kept). -/
  fmtSource : String → Option String

/-- Lines 90-103 of `main.go`: resolve every `(pkg, name)` pair to a named
type; the first failure aborts with a fatal message. -/
def resolveAll (env : Env) : List (String × String) → Except String (List GoType)
  | [] => .ok []
  | (pkg, nm) :: rest =>
    match env.lookup pkg nm with
    | .missing => .error ("Lookup of " ++ quoteStr (pkg ++ "." ++ nm) ++ " failed")
    | .notNamed d =>
      .error (quoteStr (pkg ++ "." ++ nm) ++ " is not a declared type, it is a " ++ quoteStr d)
    | .namedType t => do
      let ts ← resolveAll env rest
      .ok (t :: ts)

/-! ### Rendering (lines 139-221 of `main.go`) -/

/-- Concatenation of a list of strings (`String.join`, spelt out so that
its cons equation is definitional). -/
def concatStrs : List String → String
  | [] => ""
  | s :: rest => s ++ concatStrs rest

/-- `strings.TrimPrefix`. -/
def trimPrefix (s p : String) : String :=
  if p.data.isPrefixOf s.data then String.mk (s.data.drop p.data.length) else s

/-- The text the loop body of lines 153-181 appends to the buffer for one
method name: optional doc-comment lines (from the first type's declaration,
via the stored `Obj`), then a tab, the name, and the signature with its
`func` prefix stripped. -/
def methodChunk (env : Env) (flags : Flags) (com : Smap) (name : String) : String :=
  match com.lookup name with
  | none => ""
  | some v =>
    (if flags.comments then concatStrs ((env.docOf v.Obj).map (· ++ "\n")) else "")
      ++ "\t" ++ name ++ trimPrefix (env.sigStr v.Signature) "func" ++ "\n"

/-- `bytes.Index`-style search: index of the first occurrence of `needle`
in `hay`, if any. -/
def indexOfSub (hay needle : List Char) : Option Nat :=
  match hay with
  | [] => if needle.isPrefixOf ([] : List Char) then some 0 else none
  | _ :: t =>
    if needle.isPrefixOf hay then some 0
    else (indexOfSub t needle).map (· + 1)

/-- Lines 191-195 of `main.go`: drop everything before the first
`"interface"` so only the interface type remains. -/
def dropToInterface (src : String) : String :=
  match indexOfSub src.data "interface".data with
  | some i => String.mk (src.data.drop i)
  | none => src

/-- Lines 146-195 of `main.go`: build the buffer (package header, sorted
methods, closing brace), run it through `format.Source` (keeping the raw
buffer on error), and strip everything before `"interface"`. -/
def bodyText (env : Env) (flags : Flags) (com : Smap) : String :=
  let buf := "package common;type T interface\x7b\n"
    ++ concatStrs ((sortedNames com).map (methodChunk env flags com)) ++ "\x7d\n"
  let src := (env.fmtSource buf).getD buf
  dropToInterface src

/-- The method list of the interface built at lines 200-206 (name and
signature of every entry of `common`; order is irrelevant to
`types.Implements`). -/
def ifaceMethods (com : Smap) : List (String × Sig) :=
  com.map fun e => (e.1, e.2.Signature)

/-- `types.Implements(t, iface)`: every interface method occurs, with an
identical signature, in the method set of `t`. -/
def implementsIface (msOf : GoType → List MethodSel) (t : GoType)
    (ms : List (String × Sig)) : Bool :=
  ms.all fun nm => (msOf t).any fun m => m.name = nm.1 && m.sig = nm.2

/-- Lines 210-217 of `main.go`: the type printed on one header line — a
pointer type is printed as its element type when the element type already
implements the interface. -/
def headerEntryType (msOf : GoType → List MethodSel) (ms : List (String × Sig))
    (t : GoType) : GoType :=
  match t with
  | .pointer e => if implementsIface msOf e ms then e else .pointer e
  | .named i b => .named i b

/-- Lines 197-218 of `main.go`: the header comment block (empty unless the
`-header` flag is set): `// Common interface of` followed by one `// `-line
per (pointer-normalized) listed type, in order. -/
def headerText (env : Env) (flags : Flags) (ntyps : List GoType) (com : Smap) : String :=
  if flags.header then
    let ms := ifaceMethods com
    concatStrs
      (("// Common interface of"
          :: ntyps.map fun t => "// " ++ env.typeStr (headerEntryType env.msOf ms t)).map
        (· ++ "\n"))
  else ""

/-- The whole program (`main`, lines 57-222): `.error` models `log.Fatalf`
(or the usage exit for an empty argument list), `.ok` carries the full
standard output (header comment, then interface text). -/
def runProgram (env : Env) (flags : Flags) (args : List String) : Except String String :=
  if args.isEmpty then .error "usage"
  else do
    let pairs ← parseArgs args
    match env.loadErr with
    | some e => .error ("Error loading packages: " ++ e)
    | none => do
      let typs ← resolveAll env pairs
      let com := commonOf flags.priv env.msOf typs
      let ntyps := typs.map normalizeType
      .ok (headerText env flags ntyps com ++ bodyText env flags com)

/-! ### The older program version (second half of the source file)

It computes `common : map[string]*types.Signature` (no `Obj`), then renders
by building a `types.NewInterface` from `types.NewFunc(token.NoPos, nil,
name, sig)` and calling `types.TypeString` on it. `NewInterface(...)
.Complete()` sorts its methods by `types.Object.Id`, which for a `nil`
package is the name itself when exported and `"_." ++ name` otherwise. -/

/-- Model of the old version's `map[string]*types.Signature`. -/
abbrev SmapOld := List (String × Sig)

/-- Go map assignment for the old version's map. -/
def minsertOld (m : SmapOld) (k : String) (v : Sig) : SmapOld :=
  match m with
  | [] => [(k, v)]
  | (k0, v0) :: rest => if k0 = k then (k, v) :: rest else (k0, v0) :: minsertOld rest k v

/-- Lines 312-321 of the source (old version): the per-type map, without the
declaring object. -/
def sigsOfOld (priv : Bool) (ms : List MethodSel) : SmapOld :=
  ms.foldl
    (fun m meth =>
      if priv || isExported meth.name then minsertOld m meth.name meth.sig else m)
    []

/-- Lines 326-332 of the source (old version): the intersection step. -/
def intersectStepOld (com sigs : SmapOld) : SmapOld :=
  com.filter fun e =>
    match sigs.lookup e.1 with
    | some s => s = e.2
    | none => false

/-- Lines 303-334 of the source (old version): the common-method map. -/
def commonOfOld (priv : Bool) (msOf : GoType → List MethodSel) (typs : List GoType) : SmapOld :=
  match typs with
  | [] => []
  | t :: ts =>
    ts.foldl
      (fun com t2 => intersectStepOld com (sigsOfOld priv (msOf (normalizeType t2))))
      (sigsOfOld priv (msOf (normalizeType t)))

/-- `types.Object.Id` for a function created with a `nil` package
(`types.NewFunc(token.NoPos, nil, name, sig)`): the name itself when
exported, otherwise `"_." ++ name`. -/
def idOf (name : String) : String :=
  if isExported name then name else "_." ++ name

/-- The method-name order of the old rendering: `NewInterface(...)
.Complete()` sorts methods by `Id`, and `types.TypeString` prints them in
that order. -/
def sortedNamesOld (m : SmapOld) : List String :=
  List.insertionSort (fun a b => strLe (idOf a) (idOf b) = true) (m.map (·.1))

/-- The ordered (name, signature) pairs the current version renders
(signature text and gofmt are shared host oracles, so the body text is
determined by this list). -/
def renderedMethods (com : Smap) : List (String × Sig) :=
  (sortedNames com).filterMap fun n => (com.lookup n).map fun v => (n, v.Signature)

/-- The ordered (name, signature) pairs the old version renders. -/
def renderedMethodsOld (m : SmapOld) : List (String × Sig) :=
  (sortedNamesOld m).filterMap fun n => (m.lookup n).map fun s => (n, s)

/-- A name whose first character is an ASCII identifier character: an
ASCII upper-case letter (exported), or between `'_'` and `'z'` (`'_'` and
the ASCII lower-case letters; unexported). Names starting with non-ASCII
letters (e.g. `Äpple`) are excluded: for those the two program versions
can order methods differently. -/
def asciiIdentStart (s : String) : Bool :=
  match s.data with
  | [] => false
  | c :: _ => c.isUpper || (decide ('_' ≤ c) && decide (c ≤ 'z'))

/-- The fold step of `sigsOf`, named for the lemmas below. -/
def sigsStep (priv : Bool) (m : Smap) (meth : MethodSel) : Smap :=
  if priv || isExported meth.name then minsert m meth.name ⟨meth.sig, meth.obj⟩ else m

/-- A small concrete method-set oracle for concrete runs: `*T0` has
`Read`, `close` and `Write`; `*T1` has `Read` (identical signature) and
`Write` (different signature). -/
def msW : GoType → List MethodSel
  | .pointer (.named 0 _) => [⟨"Read", 1, 10⟩, ⟨"close", 2, 11⟩, ⟨"Write", 3, 12⟩]
  | .pointer (.named 1 _) => [⟨"Read", 1, 20⟩, ⟨"Write", 4, 22⟩]
  | _ => []

/-- Method-set oracle for the Unicode counterexample: one type whose
pointer form has the methods `Äpple` (first rune U+00C4, upper case, so
exported) and `äpple` (first rune U+00E4, lower case, so unexported). -/
def msU : GoType → List MethodSel
  | .pointer (.named 0 _) => [⟨"Äpple", 1, 30⟩, ⟨"äpple", 2, 31⟩]
  | _ => []

/-- A concrete host oracle for concrete runs (two packages, one type each;
`format.Source` is the identity). -/
def envW : Env :=
  ⟨none,
    fun p n =>
      if p = "bytes" then
        (if n = "Reader" then .namedType (.named 0 false) else .missing)
      else if p = "bufio" then
        (if n = "Reader" then .namedType (.named 1 false) else .missing)
      else .missing,
    msW,
    fun o => if o = 10 then ["// Read reads bytes."] else [],
    fun s => if s = 1 then "func(b []byte) (n int, err error)" else "func()",
    fun t =>
      match t with
      | .pointer (.named 0 _) => "*bytes.Reader"
      | .named 0 _ => "bytes.Reader"
      | .pointer (.named 1 _) => "*bufio.Reader"
      | .named 1 _ => "bufio.Reader"
      | _ => "?",
    fun s => some s⟩

/-! ## Sanity checks: concrete evaluation of the pipeline -/

example :
    commonOf false
      (fun t =>
        if t = .pointer (.named 0 false) then
          [⟨"Read", 1, 10⟩, ⟨"close", 2, 11⟩, ⟨"Write", 3, 12⟩]
        else
          [⟨"Read", 1, 20⟩, ⟨"Write", 4, 22⟩])
      [.named 0 false, .named 1 false] = [("Read", ⟨1, 10⟩)] := by decide

example : normalizeType (.named 5 false) = .pointer (.named 5 false) := by decide

example : normalizeType (.named 5 true) = .named 5 true := by decide

example : sigsOf false [⟨"x", 1, 2⟩, ⟨"Y", 3, 4⟩] = [("Y", ⟨3, 4⟩)] := by decide

/-! ## Association-list lemmas -/

theorem lookup_cons_eq {β : Type} (k : String) (b : β) (es : List (String × β)) (a : String) :
    ((k, b) :: es).lookup a = if a = k then some b else es.lookup a := by
  by_cases h : a = k
  · subst h
    simp [List.lookup_cons]
  · have hb : (a == k) = false := beq_eq_false_iff_ne.mpr h
    rw [List.lookup_cons, hb, if_neg h]

theorem alookup_mem {β : Type} (m : List (String × β)) (k : String) (v : β)
    (h : m.lookup k = some v) : (k, v) ∈ m := by
  induction m with
  | nil => simp at h
  | cons e rest ih =>
    obtain ⟨k0, v0⟩ := e
    rw [lookup_cons_eq] at h
    by_cases hk : k = k0
    · subst hk
      rw [if_pos rfl] at h
      rw [Option.some_inj] at h
      subst h
      exact List.mem_cons_self _ _
    · rw [if_neg hk] at h
      exact List.mem_cons_of_mem _ (ih h)

theorem alookup_none {β : Type} (m : List (String × β)) (k : String)
    (h : k ∉ m.map (·.1)) : m.lookup k = none := by
  induction m with
  | nil => simp
  | cons e rest ih =>
    obtain ⟨k0, v0⟩ := e
    simp only [List.map_cons, List.mem_cons, not_or] at h
    rw [lookup_cons_eq, if_neg h.1]
    exact ih h.2

theorem mem_keys_of_lookup {β : Type} (m : List (String × β)) (k : String) (v : β)
    (h : m.lookup k = some v) : k ∈ m.map (·.1) := by
  by_contra hk
  rw [alookup_none m k hk] at h
  exact Option.noConfusion h

theorem nodup_keys_filter {β : Type} (m : List (String × β)) (p : String × β → Bool)
    (h : (m.map (·.1)).Nodup) : ((m.filter p).map (·.1)).Nodup :=
  h.sublist ((m.filter_sublist).map (·.1))

theorem lookup_minsert (m : Smap) (k k2 : String) (v : fn) :
    (minsert m k v).lookup k2 = if k2 = k then some v else m.lookup k2 := by
  induction m with
  | nil => simp [minsert, lookup_cons_eq]
  | cons e rest ih =>
    obtain ⟨k0, v0⟩ := e
    by_cases h : k0 = k
    · subst h
      rw [minsert, if_pos rfl, lookup_cons_eq, lookup_cons_eq]
      by_cases h2 : k2 = k0 <;> simp [h2]
    · rw [minsert, if_neg h, lookup_cons_eq, lookup_cons_eq, ih]
      by_cases h2 : k2 = k0
      · by_cases h3 : k2 = k
        · exact absurd (h2.symm.trans h3) h
        · simp [h2, h3, h]
      · by_cases h3 : k2 = k
        · simp only [h2, h3, if_true, if_false, if_neg h2]
          rw [if_neg (fun hh => h hh.symm)]
        · simp [h2, h3]

theorem mem_keys_minsert (m : Smap) (k n : String) (v : fn) :
    n ∈ (minsert m k v).map (·.1) ↔ n = k ∨ n ∈ m.map (·.1) := by
  induction m with
  | nil => simp [minsert]
  | cons e rest ih =>
    obtain ⟨k0, v0⟩ := e
    by_cases h : k0 = k
    · subst h
      rw [minsert, if_pos rfl]
      simp only [List.map_cons, List.mem_cons]
      tauto
    · rw [minsert, if_neg h]
      simp only [List.map_cons, List.mem_cons, ih]
      tauto

theorem nodup_keys_minsert (m : Smap) (k : String) (v : fn)
    (h : (m.map (·.1)).Nodup) : ((minsert m k v).map (·.1)).Nodup := by
  induction m with
  | nil => simp [minsert]
  | cons e rest ih =>
    obtain ⟨k0, v0⟩ := e
    simp only [List.map_cons, List.nodup_cons] at h
    by_cases hk : k0 = k
    · subst hk
      rw [minsert, if_pos rfl]
      simp only [List.map_cons, List.nodup_cons]
      exact h
    · rw [minsert, if_neg hk]
      simp only [List.map_cons, List.nodup_cons]
      refine ⟨?_, ih h.2⟩
      rw [mem_keys_minsert]
      rintro (rfl | hm)
      · exact hk rfl
      · exact h.1 hm

theorem sigsOf_eq_foldl (priv : Bool) (ms : List MethodSel) :
    sigsOf priv ms = ms.foldl (sigsStep priv) [] := rfl

theorem nodup_keys_sigsOf_foldl (priv : Bool) :
    ∀ (ms : List MethodSel) (m : Smap), (m.map (·.1)).Nodup →
      (((ms.foldl (sigsStep priv) m)).map (·.1)).Nodup := by
  intro ms
  induction ms with
  | nil => intro m h; exact h
  | cons meth ms ih =>
    intro m h
    rw [List.foldl_cons]
    refine ih _ ?_
    rw [sigsStep]
    by_cases hc : (priv || isExported meth.name) = true
    · rw [if_pos hc]
      exact nodup_keys_minsert m _ _ h
    · rw [if_neg hc]
      exact h

theorem nodup_keys_sigsOf (priv : Bool) (ms : List MethodSel) :
    ((sigsOf priv ms).map (·.1)).Nodup := by
  rw [sigsOf_eq_foldl]
  exact nodup_keys_sigsOf_foldl priv ms [] (by simp)

theorem lookup_sigsOf_foldl_isSome (priv : Bool) (k : String) :
    ∀ (ms : List MethodSel) (m : Smap),
      ((ms.foldl (sigsStep priv) m).lookup k).isSome = true ↔
        ((m.lookup k).isSome = true ∨
          ((priv || isExported k) = true ∧ ∃ mm ∈ ms, mm.name = k)) := by
  intro ms
  induction ms with
  | nil => intro m; simp
  | cons meth ms ih =>
    intro m
    rw [List.foldl_cons, ih]
    rw [sigsStep]
    by_cases hc : (priv || isExported meth.name) = true
    · rw [if_pos hc]
      rw [lookup_minsert]
      by_cases hk : k = meth.name
      · rw [if_pos hk]
        subst hk
        simp only [Option.isSome_some, true_or, true_iff]
        exact Or.inr ⟨hc, meth, List.mem_cons_self _ _, rfl⟩
      · rw [if_neg hk]
        constructor
        · rintro (h2 | h2)
          · exact Or.inl h2
          · exact Or.inr ⟨h2.1, by
              obtain ⟨mm, hmm, hnm⟩ := h2.2
              exact ⟨mm, List.mem_cons_of_mem _ hmm, hnm⟩⟩
        · rintro (h2 | h2)
          · exact Or.inl h2
          · obtain ⟨mm, hmm, hnm⟩ := h2.2
            rcases List.mem_cons.mp hmm with rfl | hmm
            · exact absurd hnm.symm hk
            · exact Or.inr ⟨h2.1, mm, hmm, hnm⟩
    · rw [if_neg hc]
      constructor
      · rintro (h2 | h2)
        · exact Or.inl h2
        · exact Or.inr ⟨h2.1, by
            obtain ⟨mm, hmm, hnm⟩ := h2.2
            exact ⟨mm, List.mem_cons_of_mem _ hmm, hnm⟩⟩
      · rintro (h2 | h2)
        · exact Or.inl h2
        · obtain ⟨mm, hmm, hnm⟩ := h2.2
          rcases List.mem_cons.mp hmm with rfl | hmm
          · subst hnm
            exact absurd h2.1 hc
          · exact Or.inr ⟨h2.1, mm, hmm, hnm⟩

theorem lookup_sigsOf_isSome (priv : Bool) (ms : List MethodSel) (k : String) :
    ((sigsOf priv ms).lookup k).isSome = true ↔
      ((priv || isExported k) = true ∧ ∃ mm ∈ ms, mm.name = k) := by
  rw [sigsOf_eq_foldl, lookup_sigsOf_foldl_isSome]
  simp

theorem lookup_sigsOf_foldl_src (priv : Bool) (k : String) (v : fn) :
    ∀ (ms : List MethodSel) (m : Smap),
      (ms.foldl (sigsStep priv) m).lookup k = some v →
        m.lookup k = some v ∨ ∃ mm ∈ ms, mm.name = k ∧ v = ⟨mm.sig, mm.obj⟩ := by
  intro ms
  induction ms with
  | nil => intro m h; exact Or.inl h
  | cons meth ms ih =>
    intro m h
    rw [List.foldl_cons] at h
    rcases ih _ h with h2 | h2
    · rw [sigsStep] at h2
      by_cases hc : (priv || isExported meth.name) = true
      · rw [if_pos hc, lookup_minsert] at h2
        by_cases hk : k = meth.name
        · rw [if_pos hk] at h2
          rw [Option.some_inj] at h2
          exact Or.inr ⟨meth, List.mem_cons_self _ _, hk.symm, h2.symm⟩
        · rw [if_neg hk] at h2
          exact Or.inl h2
      · rw [if_neg hc] at h2
        exact Or.inl h2
    · obtain ⟨mm, hmm, hnm, hv⟩ := h2
      exact Or.inr ⟨mm, List.mem_cons_of_mem _ hmm, hnm, hv⟩

theorem lookup_sigsOf_src (priv : Bool) (ms : List MethodSel) (k : String) (v : fn)
    (h : (sigsOf priv ms).lookup k = some v) :
    ∃ mm ∈ ms, mm.name = k ∧ v = ⟨mm.sig, mm.obj⟩ := by
  rw [sigsOf_eq_foldl] at h
  rcases lookup_sigsOf_foldl_src priv k v ms [] h with h2 | h2
  · simp at h2
  · exact h2

/-! ## The intersection step and the intersection fold -/

theorem lookup_intersect_none (s rest : Smap) (k : String) (h : k ∉ rest.map (·.1)) :
    (intersectStep rest s).lookup k = none :=
  alookup_none _ _ fun hm => h ((rest.filter_sublist.map (·.1)).subset hm)

theorem intersectStep_cons_none (s rest : Smap) (k0 : String) (v0 : fn)
    (hs : s.lookup k0 = none) :
    intersectStep ((k0, v0) :: rest) s = intersectStep rest s := by
  rw [intersectStep, List.filter_cons]
  simp only [hs]
  rw [if_neg (by simp)]
  rfl

theorem intersectStep_cons_some_eq (s rest : Smap) (k0 : String) (v0 sv : fn)
    (hs : s.lookup k0 = some sv) (hsig : sv.Signature = v0.Signature) :
    intersectStep ((k0, v0) :: rest) s = (k0, v0) :: intersectStep rest s := by
  rw [intersectStep, List.filter_cons]
  simp only [hs]
  rw [if_pos (by simp [hsig])]
  rfl

theorem intersectStep_cons_some_ne (s rest : Smap) (k0 : String) (v0 sv : fn)
    (hs : s.lookup k0 = some sv) (hsig : ¬sv.Signature = v0.Signature) :
    intersectStep ((k0, v0) :: rest) s = intersectStep rest s := by
  rw [intersectStep, List.filter_cons]
  simp only [hs]
  rw [if_neg (by simp [hsig])]
  rfl

theorem nodup_keys_intersectStep (com s : Smap) (h : (com.map (·.1)).Nodup) :
    ((intersectStep com s).map (·.1)).Nodup :=
  nodup_keys_filter com _ h

theorem lookup_intersectStep (s : Smap) (k : String) (v : fn) :
    ∀ com : Smap, (com.map (·.1)).Nodup →
      ((intersectStep com s).lookup k = some v ↔
        (com.lookup k = some v ∧
          ∃ sv, s.lookup k = some sv ∧ sv.Signature = v.Signature)) := by
  intro com
  induction com with
  | nil => simp [intersectStep]
  | cons e rest ih =>
    intro hnd
    obtain ⟨k0, v0⟩ := e
    simp only [List.map_cons, List.nodup_cons] at hnd
    rcases hs : s.lookup k0 with _ | sv
    · rw [intersectStep_cons_none s rest k0 v0 hs]
      by_cases hk : k = k0
      · subst hk
        rw [lookup_intersect_none s rest k hnd.1]
        constructor
        · intro hh
          exact Option.noConfusion hh
        · rintro ⟨h1, sv2, hsv2, _⟩
          rw [hs] at hsv2
          exact Option.noConfusion hsv2
      · rw [ih hnd.2, lookup_cons_eq, if_neg hk]
    · by_cases hsig : sv.Signature = v0.Signature
      · rw [intersectStep_cons_some_eq s rest k0 v0 sv hs hsig]
        by_cases hk : k = k0
        · subst hk
          rw [lookup_cons_eq, if_pos rfl, lookup_cons_eq, if_pos rfl]
          constructor
          · intro hh
            rw [Option.some_inj] at hh
            subst hh
            exact ⟨rfl, sv, hs, hsig⟩
          · rintro ⟨h1, _⟩
            exact h1
        · rw [lookup_cons_eq, if_neg hk, lookup_cons_eq, if_neg hk]
          exact ih hnd.2
      · rw [intersectStep_cons_some_ne s rest k0 v0 sv hs hsig]
        by_cases hk : k = k0
        · subst hk
          rw [lookup_intersect_none s rest k hnd.1]
          constructor
          · intro hh
            exact Option.noConfusion hh
          · rintro ⟨h1, sv2, hsv2, hsg2⟩
            rw [lookup_cons_eq, if_pos rfl, Option.some_inj] at h1
            rw [hs, Option.some_inj] at hsv2
            subst h1
            subst hsv2
            exact (hsig hsg2).elim
        · rw [ih hnd.2, lookup_cons_eq, if_neg hk]

theorem lookup_foldl_inter (g : GoType → Smap) (k : String) (v : fn) :
    ∀ (ts : List GoType) (com : Smap), (com.map (·.1)).Nodup →
      ((ts.foldl (fun c t2 => intersectStep c (g t2)) com).lookup k = some v ↔
        (com.lookup k = some v ∧
          ∀ t2 ∈ ts, ∃ sv, (g t2).lookup k = some sv ∧ sv.Signature = v.Signature)) := by
  intro ts
  induction ts with
  | nil =>
    intro com _
    simp
  | cons t ts ih =>
    intro com hnd
    rw [List.foldl_cons]
    rw [ih _ (nodup_keys_intersectStep com (g t) hnd)]
    rw [lookup_intersectStep (g t) k v com hnd]
    constructor
    · rintro ⟨⟨h1, sv, hsv, hsg⟩, h2⟩
      refine ⟨h1, ?_⟩
      intro t2 ht2
      rcases List.mem_cons.mp ht2 with rfl | ht2
      · exact ⟨sv, hsv, hsg⟩
      · exact h2 t2 ht2
    · rintro ⟨h1, h2⟩
      refine ⟨⟨h1, h2 t (List.mem_cons_self _ _)⟩, ?_⟩
      intro t2 ht2
      exact h2 t2 (List.mem_cons_of_mem _ ht2)

theorem alookup_of_mem_nodup {β : Type} (k : String) (v : β) :
    ∀ m : List (String × β), (m.map (·.1)).Nodup → (k, v) ∈ m → m.lookup k = some v := by
  intro m
  induction m with
  | nil =>
    intro _ hm
    simp at hm
  | cons e rest ih =>
    intro hnd hm
    obtain ⟨k0, v0⟩ := e
    simp only [List.map_cons, List.nodup_cons] at hnd
    rcases List.mem_cons.mp hm with he | hm2
    · rw [Prod.mk.injEq] at he
      obtain ⟨rfl, rfl⟩ := he
      rw [lookup_cons_eq, if_pos rfl]
    · have hk : k ≠ k0 := by
        intro hh
        subst hh
        exact hnd.1 (List.mem_map.mpr ⟨(k, v), hm2, rfl⟩)
      rw [lookup_cons_eq, if_neg hk]
      exact ih hnd.2 hm2

theorem nodup_keys_foldl_inter (g : GoType → Smap) :
    ∀ (ts : List GoType) (com : Smap), (com.map (·.1)).Nodup →
      (((ts.foldl (fun c t2 => intersectStep c (g t2)) com)).map (·.1)).Nodup := by
  intro ts
  induction ts with
  | nil => intro com h; exact h
  | cons t ts ih =>
    intro com h
    rw [List.foldl_cons]
    exact ih _ (nodup_keys_intersectStep com (g t) h)

theorem nodup_keys_commonOf (priv : Bool) (msOf : GoType → List MethodSel)
    (typs : List GoType) : ((commonOf priv msOf typs).map (·.1)).Nodup := by
  match typs with
  | [] => simp [commonOf]
  | t :: ts =>
    exact nodup_keys_foldl_inter (fun t2 => sigsOf priv (msOf (normalizeType t2))) ts _
      (nodup_keys_sigsOf priv _)

theorem lookup_commonOf_cons (priv : Bool) (msOf : GoType → List MethodSel)
    (t0 : GoType) (ts : List GoType) (k : String) (v : fn) :
    (commonOf priv msOf (t0 :: ts)).lookup k = some v ↔
      ((sigsOf priv (msOf (normalizeType t0))).lookup k = some v ∧
        ∀ t2 ∈ ts, ∃ sv,
          (sigsOf priv (msOf (normalizeType t2))).lookup k = some sv ∧
            sv.Signature = v.Signature) :=
  lookup_foldl_inter (fun t2 => sigsOf priv (msOf (normalizeType t2))) k v ts _
    (nodup_keys_sigsOf priv _)

theorem pointer_ne_self : ∀ t : GoType, GoType.pointer t ≠ t := by
  intro t
  induction t with
  | pointer e ih =>
    intro h
    injection h with h2
    exact ih h2
  | named i b =>
    intro h
    exact GoType.noConfusion h

/-! ## Argument-parsing lemmas -/

theorem lastIndexOf_eq_none_iff (c : Char) :
    ∀ l : List Char, lastIndexOf l c = none ↔ c ∉ l := by
  intro l
  induction l with
  | nil => simp [lastIndexOf]
  | cons x xs ih =>
    rw [lastIndexOf]
    rcases h : lastIndexOf xs c with _ | j
    · rw [h] at ih
      by_cases hx : x = c
      · rw [if_pos hx]
        subst hx
        simp
      · rw [if_neg hx]
        simp only [List.mem_cons, not_or]
        constructor
        · intro _
          exact ⟨fun hh => hx hh.symm, ih.mp rfl⟩
        · intro _
          trivial
    · constructor
      · intro hh
        exact Option.noConfusion hh
      · intro hm
        have : c ∈ xs := by
          by_contra hc
          rw [(ih.mpr hc)] at h
          exact Option.noConfusion h
        exact absurd (List.mem_cons_of_mem _ this) hm

theorem lastIndexOf_eq_some_iff (c : Char) :
    ∀ (l : List Char) (i : Nat),
      lastIndexOf l c = some i ↔
        ∃ p t : List Char, l = p ++ c :: t ∧ p.length = i ∧ c ∉ t := by
  intro l
  induction l with
  | nil =>
    intro i
    constructor
    · intro hh
      exact Option.noConfusion hh
    · rintro ⟨p, t, hl, _, _⟩
      exact absurd hl (by simp)
  | cons x xs ih =>
    intro i
    rw [lastIndexOf]
    rcases h : lastIndexOf xs c with _ | j
    · have hnot : c ∉ xs := (lastIndexOf_eq_none_iff c xs).mp h
      by_cases hx : x = c
      · rw [if_pos hx]
        subst hx
        constructor
        · intro hh
          rw [Option.some_inj] at hh
          subst hh
          exact ⟨[], xs, rfl, rfl, hnot⟩
        · rintro ⟨p, t, hl, hlen, hct⟩
          rcases p with _ | ⟨y, p⟩
          · simp at hl
            rw [Option.some_inj]
            rw [← hlen]
            rfl
          · rw [List.cons_append, List.cons.injEq] at hl
            exact absurd (hl.2 ▸ List.mem_append_right p (List.mem_cons_self _ _)) hnot
      · rw [if_neg hx]
        constructor
        · intro hh
          exact Option.noConfusion hh
        · rintro ⟨p, t, hl, hlen, hct⟩
          rcases p with _ | ⟨y, p⟩
          · simp at hl
            exact absurd hl.1 hx
          · rw [List.cons_append, List.cons.injEq] at hl
            exact absurd (hl.2 ▸ List.mem_append_right p (List.mem_cons_self _ _)) hnot
    · have hmem : c ∈ xs := by
        by_contra hc
        rw [(lastIndexOf_eq_none_iff c xs).mpr hc] at h
        exact Option.noConfusion h
      obtain ⟨p0, t0, hxs, hlen0, hct0⟩ := (ih j).mp h
      constructor
      · intro hh
        rw [Option.some_inj] at hh
        subst hh
        exact ⟨x :: p0, t0, by rw [hxs, List.cons_append], by simp [hlen0], hct0⟩
      · rintro ⟨p, t, hl, hlen, hct⟩
        rcases p with _ | ⟨y, p⟩
        · simp at hl
          obtain ⟨rfl, rfl⟩ := hl
          exact absurd hmem hct
        · rw [List.cons_append, List.cons.injEq] at hl
          have : lastIndexOf xs c = some p.length := (ih p.length).mpr ⟨p, t, hl.2, rfl, hct⟩
          rw [h, Option.some_inj] at this
          rw [Option.some_inj]
          rw [← hlen]
          simp [this]

theorem parseArg_some_iff (arg p t : String) :
    parseArg arg = some (p, t) ↔
      (arg.data = p.data ++ '.' :: t.data ∧ p.data ≠ [] ∧ '.' ∉ t.data) := by
  rw [parseArg]
  rcases h : lastIndexOf arg.data '.' with _ | i
  · rw [lastIndexOf_eq_none_iff] at h
    simp only []
    constructor
    · intro hh
      exact Option.noConfusion hh
    · rintro ⟨hdec, _, _⟩
      exact absurd (hdec ▸ List.mem_append_right p.data (List.mem_cons_self _ _)) h
  · rcases i with _ | i
    · obtain ⟨pp, tt, hdec, hlen, hnot⟩ := (lastIndexOf_eq_some_iff '.' arg.data 0).mp h
      have hpp : pp = [] := List.length_eq_zero.mp hlen
      subst hpp
      simp only []
      constructor
      · intro hh
        exact Option.noConfusion hh
      · rintro ⟨hdec2, hne, hnt⟩
        have h2 : lastIndexOf arg.data '.' = some p.data.length :=
          (lastIndexOf_eq_some_iff '.' arg.data p.data.length).mpr
            ⟨p.data, t.data, hdec2, rfl, hnt⟩
        rw [h, Option.some_inj] at h2
        exact (hne (List.length_eq_zero.mp h2.symm)).elim
    · obtain ⟨pp, tt, hdec, hlen, hnot⟩ :=
        (lastIndexOf_eq_some_iff '.' arg.data (i + 1)).mp h
      have ht1 : arg.data.take (i + 1) = pp := by
        rw [hdec]
        exact List.take_left' hlen
      have ht2 : arg.data.drop (i + 2) = tt := by
        rw [hdec]
        have hsplit : pp ++ '.' :: tt = (pp ++ ['.']) ++ tt := by simp
        rw [hsplit]
        exact List.drop_left' (by simp [hlen])
      simp only [ht1, ht2]
      constructor
      · intro hh
        rw [Option.some_inj, Prod.mk.injEq] at hh
        obtain ⟨hp, ht⟩ := hh
        have hpd : p.data = pp := by rw [← hp]
        have htd : t.data = tt := by rw [← ht]
        refine ⟨by rw [hpd, htd, hdec], ?_, by rw [htd]; exact hnot⟩
        rw [hpd]
        intro he
        rw [he] at hlen
        exact Nat.succ_ne_zero i hlen.symm
      · rintro ⟨hdec2, hne, hnt⟩
        have h2 : lastIndexOf arg.data '.' = some p.data.length :=
          (lastIndexOf_eq_some_iff '.' arg.data p.data.length).mpr
            ⟨p.data, t.data, hdec2, rfl, hnt⟩
        rw [h, Option.some_inj] at h2
        have hdd : pp ++ '.' :: tt = p.data ++ '.' :: t.data := by rw [← hdec, ← hdec2]
        obtain ⟨he1, he2⟩ := List.append_inj hdd (by rw [hlen, h2])
        rw [List.cons.injEq] at he2
        rw [Option.some_inj, Prod.mk.injEq]
        constructor
        · apply String.ext
          rw [he1]
        · apply String.ext
          rw [he2.2]

theorem parseArg_none_iff (arg : String) :
    parseArg arg = none ↔
      ('.' ∉ arg.data ∨ ∃ tl, arg.data = '.' :: tl ∧ '.' ∉ tl) := by
  rw [parseArg]
  rcases h : lastIndexOf arg.data '.' with _ | i
  · rw [lastIndexOf_eq_none_iff] at h
    simp only []
    constructor
    · intro _
      exact Or.inl h
    · intro _
      trivial
  · rcases i with _ | i
    · obtain ⟨pp, tt, hdec, hlen, hnot⟩ := (lastIndexOf_eq_some_iff '.' arg.data 0).mp h
      have hpp : pp = [] := List.length_eq_zero.mp hlen
      subst hpp
      simp only []
      constructor
      · intro _
        exact Or.inr ⟨tt, by simpa using hdec, hnot⟩
      · intro _
        trivial
    · simp only []
      constructor
      · intro hh
        exact Option.noConfusion hh
      · rintro (hnd | ⟨tl, htl, hnt⟩)
        · obtain ⟨pp, tt, hdec, _, _⟩ :=
            (lastIndexOf_eq_some_iff '.' arg.data (i + 1)).mp h
          exact absurd (hdec ▸ List.mem_append_right pp (List.mem_cons_self _ _)) hnd
        · have h0 : lastIndexOf arg.data '.' = some 0 :=
            (lastIndexOf_eq_some_iff '.' arg.data 0).mpr
              ⟨[], tl, by simpa using htl, rfl, hnt⟩
          rw [h, Option.some_inj] at h0
          exact absurd h0 (Nat.succ_ne_zero i)

theorem parseArgs_error_of_bad :
    ∀ args : List String, (∃ a ∈ args, parseArg a = none) →
      ∃ bad, parseArg bad = none ∧
        parseArgs args = .error ("Expected [pkg].[type], not " ++ quoteStr bad) := by
  intro args
  induction args with
  | nil =>
    rintro ⟨a, ha, _⟩
    simp at ha
  | cons arg rest ih =>
    rintro ⟨a, ha, hbad⟩
    rcases hp : parseArg arg with _ | pr
    · refine ⟨arg, hp, ?_⟩
      rw [parseArgs, hp]
    · rcases List.mem_cons.mp ha with rfl | ha2
      · rw [hp] at hbad
        exact Option.noConfusion hbad
      · obtain ⟨bad, hb1, hb2⟩ := ih ⟨a, ha2, hbad⟩
        refine ⟨bad, hb1, ?_⟩
        rw [parseArgs, hp, hb2]
        rfl

/-! ## Claim theorems -/

/-- Claim C1: a method name is in the computed common map iff it is in the
(filtered, pointer-normalized) name-to-signature map of every listed type
with an identical signature; the stored value is the first type's entry,
and later types only remove entries. -/
theorem commonOf_mem_iff (priv : Bool) (msOf : GoType → List MethodSel)
    (t0 : GoType) (ts : List GoType) (k : String) (v : fn) :
    (commonOf priv msOf (t0 :: ts)).lookup k = some v ↔
      ((sigsOf priv (msOf (normalizeType t0))).lookup k = some v ∧
        ∀ t2 ∈ ts, ∃ sv,
          (sigsOf priv (msOf (normalizeType t2))).lookup k = some sv ∧
            sv.Signature = v.Signature) :=
  lookup_commonOf_cons priv msOf t0 ts k v

/-- Claim C3: a resolved type is replaced by its pointer type exactly when
it is neither a pointer type nor an interface type; pointer and interface
types are left unchanged. -/
theorem normalizeType_characterization (t : GoType) :
    (normalizeType t = GoType.pointer t ↔ (t.isPtr = false ∧ t.isIfaceType = false)) ∧
      (t.isPtr = true ∨ t.isIfaceType = true → normalizeType t = t) := by
  constructor
  · constructor
    · intro h
      by_cases h1 : t.isPtr = true
      · rw [normalizeType, h1] at h
        simp at h
        exact absurd h.symm (pointer_ne_self t)
      · by_cases h2 : t.isIfaceType = true
        · rw [normalizeType, h2] at h
          simp at h
          exact absurd h.symm (pointer_ne_self t)
        · exact ⟨Bool.eq_false_iff.mpr h1, Bool.eq_false_iff.mpr h2⟩
    · rintro ⟨h1, h2⟩
      rw [normalizeType, h1, h2]
      rfl
  · rintro (h | h) <;> rw [normalizeType, h] <;> simp

/-- Witness for claim C3: a plain named type is wrapped in a pointer, an
interface-underlying named type and a pointer type are left unchanged. -/
theorem normalizeType_characterization_witness :
    normalizeType (GoType.named 5 true) = GoType.named 5 true ∧
      normalizeType (GoType.pointer (GoType.named 4 false)) =
        GoType.pointer (GoType.named 4 false) ∧
      normalizeType (GoType.named 4 false) = GoType.pointer (GoType.named 4 false) :=
  ⟨(normalizeType_characterization (GoType.named 5 true)).2 (Or.inr (by decide)),
    (normalizeType_characterization (GoType.pointer (GoType.named 4 false))).2
      (Or.inl (by decide)),
    (normalizeType_characterization (GoType.named 4 false)).1.mpr
      ⟨by decide, by decide⟩⟩

/-- Claim C4: the per-type map built from a method set contains a name iff
some method of the set has that name and the name is exported or the
`-private` flag is set (with the flag set, all methods are included). -/
theorem sigsOf_mem_iff (priv : Bool) (ms : List MethodSel) :
    ∀ k : String,
      (∃ v, (sigsOf priv ms).lookup k = some v) ↔
        ((priv = true ∨ isExported k = true) ∧ ∃ mm ∈ ms, mm.name = k) := by
  intro k
  have h := lookup_sigsOf_isSome priv ms k
  rw [Option.isSome_iff_exists] at h
  rw [Bool.or_eq_true] at h
  exact h

/-- Claim C2: each listed type, after pointer normalization, implements the
computed interface: every method of the common map occurs, with an
identical signature, in the method set of the normalized type (this is the
`types.Implements` check the header printing relies on). -/
theorem normalized_implements_common (priv : Bool) (msOf : GoType → List MethodSel)
    (typs : List GoType) (t : GoType) (ht : t ∈ typs.map normalizeType) :
    implementsIface msOf t (ifaceMethods (commonOf priv msOf typs)) = true := by
  rw [implementsIface, List.all_eq_true]
  rintro ⟨k, sg⟩ hmem
  rw [List.any_eq_true]
  rw [ifaceMethods] at hmem
  obtain ⟨⟨k2, v⟩, hkv, heq⟩ := List.mem_map.mp hmem
  rw [Prod.mk.injEq] at heq
  obtain ⟨rfl, rfl⟩ := heq
  match typs, ht with
  | t0 :: ts, ht =>
    have hlk : (commonOf priv msOf (t0 :: ts)).lookup k2 = some v :=
      alookup_of_mem_nodup k2 v _ (nodup_keys_commonOf priv msOf _) hkv
    obtain ⟨h0, hrest⟩ := (lookup_commonOf_cons priv msOf t0 ts k2 v).mp hlk
    rw [List.map_cons, List.mem_cons] at ht
    rcases ht with rfl | ht
    · obtain ⟨mm, hmm, hnm, hv⟩ := lookup_sigsOf_src priv _ k2 v h0
      refine ⟨mm, hmm, ?_⟩
      rw [hv]
      simp [hnm]
    · obtain ⟨t2, ht2, rfl⟩ := List.mem_map.mp ht
      obtain ⟨sv, hsv, hsg⟩ := hrest t2 ht2
      obtain ⟨mm, hmm, hnm, hv⟩ := lookup_sigsOf_src priv _ k2 sv hsv
      refine ⟨mm, hmm, ?_⟩
      have : mm.sig = v.Signature := by
        rw [hv] at hsg
        exact hsg
      simp [hnm, this]

/-- Witness for claim C2: on a concrete pair of types, both normalized
types implement the computed interface. -/
theorem normalized_implements_common_witness :
    implementsIface
        (fun t =>
          if t = .pointer (.named 0 false) then
            [⟨"Read", 1, 10⟩, ⟨"close", 2, 11⟩, ⟨"Write", 3, 12⟩]
          else
            [⟨"Read", 1, 20⟩, ⟨"Write", 4, 22⟩])
        (GoType.pointer (.named 1 false))
        (ifaceMethods
          (commonOf false
            (fun t =>
              if t = .pointer (.named 0 false) then
                [⟨"Read", 1, 10⟩, ⟨"close", 2, 11⟩, ⟨"Write", 3, 12⟩]
              else
                [⟨"Read", 1, 20⟩, ⟨"Write", 4, 22⟩])
            [.named 0 false, .named 1 false])) = true :=
  normalized_implements_common false
    (fun t =>
      if t = .pointer (.named 0 false) then
        [⟨"Read", 1, 10⟩, ⟨"close", 2, 11⟩, ⟨"Write", 3, 12⟩]
      else
        [⟨"Read", 1, 20⟩, ⟨"Write", 4, 22⟩])
    [.named 0 false, .named 1 false] (GoType.pointer (.named 1 false)) (by decide)

/-- Claim C8: every value of the common map is the entry contributed by the
first listed type, and the doc comment rendered for a method is the one of
that stored (first-type) object. -/
theorem commonOf_value_from_first (env : Env) (flags : Flags) (priv : Bool)
    (t0 : GoType) (ts : List GoType) (k : String) (v : fn)
    (h : (commonOf priv env.msOf (t0 :: ts)).lookup k = some v)
    (hc : flags.comments = true) :
    (sigsOf priv (env.msOf (normalizeType t0))).lookup k = some v ∧
      methodChunk env flags (commonOf priv env.msOf (t0 :: ts)) k =
        concatStrs ((env.docOf v.Obj).map (· ++ "\n"))
          ++ "\t" ++ k ++ trimPrefix (env.sigStr v.Signature) "func" ++ "\n" := by
  refine ⟨((lookup_commonOf_cons priv env.msOf t0 ts k v).mp h).1, ?_⟩
  rw [methodChunk, h, hc]
  simp

/-- Witness for claim C8: on a concrete run, the surviving `Read` entry is
the first type's one (object id 10), and its doc comment is rendered from
that object. -/
theorem commonOf_value_from_first_witness :
    (sigsOf false (envW.msOf (normalizeType (GoType.named 0 false)))).lookup "Read" =
        some ⟨1, 10⟩ ∧
      methodChunk envW ⟨true, false, false⟩
          (commonOf false envW.msOf [GoType.named 0 false, GoType.named 1 false]) "Read" =
        concatStrs ((envW.docOf (10 : Nat)).map (· ++ "\n"))
          ++ "\t" ++ "Read" ++ trimPrefix (envW.sigStr (1 : Nat)) "func" ++ "\n" :=
  commonOf_value_from_first envW ⟨true, false, false⟩ false (GoType.named 0 false)
    [GoType.named 1 false] "Read" ⟨1, 10⟩ (by decide) rfl

/-- Claim C5: every command-line argument is split at its last `'.'` into a
(package, type-name) pair; an argument with no `'.'`, or whose last `'.'`
is its first character, makes the program terminate fatally with an
`Expected [pkg].[type]` message instead of producing a pair. -/
theorem parseArg_spec (arg : String) :
    (∀ p t : String, parseArg arg = some (p, t) ↔
        (arg.data = p.data ++ '.' :: t.data ∧ p.data ≠ [] ∧ '.' ∉ t.data)) ∧
      (parseArg arg = none ↔
        ('.' ∉ arg.data ∨ ∃ tl, arg.data = '.' :: tl ∧ '.' ∉ tl)) ∧
      (∀ args : List String, arg ∈ args → parseArg arg = none →
        ∃ bad, parseArg bad = none ∧
          parseArgs args = .error ("Expected [pkg].[type], not " ++ quoteStr bad)) :=
  ⟨fun p t => parseArg_some_iff arg p t, parseArg_none_iff arg,
    fun args ha hbad => parseArgs_error_of_bad args ⟨arg, ha, hbad⟩⟩

/-- Witness for claim C5: `bytes.Reader` splits into `(bytes, Reader)`;
`.Reader` is malformed and aborts argument parsing with the expected
message. -/
theorem parseArg_spec_witness :
    parseArg "bytes.Reader" = some ("bytes", "Reader") ∧
      parseArg ".Reader" = none ∧
      ∃ bad, parseArg bad = none ∧
        parseArgs ["bytes.Reader", ".Reader"] =
          .error ("Expected [pkg].[type], not " ++ quoteStr bad) :=
  ⟨((parseArg_spec "bytes.Reader").1 "bytes" "Reader").mpr
      ⟨by decide, by decide, by decide⟩,
    (parseArg_spec ".Reader").2.1.mpr (Or.inr ⟨"Reader".data, by decide, by decide⟩),
    (parseArg_spec ".Reader").2.2 ["bytes.Reader", ".Reader"] (by decide)
      ((parseArg_spec ".Reader").2.1.mpr
        (Or.inr ⟨"Reader".data, by decide, by decide⟩))⟩

theorem resolveAll_error_of_bad (env : Env) :
    ∀ pairs : List (String × String),
      (∃ pr ∈ pairs, ∀ t, env.lookup pr.1 pr.2 ≠ .namedType t) →
      ∃ msg, resolveAll env pairs = .error msg := by
  intro pairs
  induction pairs with
  | nil =>
    rintro ⟨pr, hpr, _⟩
    simp at hpr
  | cons pr0 rest ih =>
    rintro ⟨pr, hpr, hbad⟩
    obtain ⟨pkg, nm⟩ := pr0
    rcases hl : env.lookup pkg nm with _ | d | t
    · exact ⟨_, by rw [resolveAll, hl]⟩
    · exact ⟨_, by rw [resolveAll, hl]⟩
    · rcases List.mem_cons.mp hpr with rfl | hpr2
      · exact absurd hl (hbad t)
      · obtain ⟨msg, hmsg⟩ := ih ⟨pr, hpr2, hbad⟩
        refine ⟨msg, ?_⟩
        rw [resolveAll, hl, hmsg]
        rfl

/-- Claim C6: when a name lookup fails, a looked-up object is not a declared
type, or package loading fails, the program terminates with a fatal error
(`Except.error`, so no interface text is printed). -/
theorem runProgram_fatal_on_resolution_failure (env : Env) (flags : Flags)
    (args : List String) (pairs : List (String × String))
    (hp : parseArgs args = .ok pairs)
    (hfail : env.loadErr ≠ none ∨ ∃ pr ∈ pairs, ∀ t, env.lookup pr.1 pr.2 ≠ .namedType t) :
    ∃ msg, runProgram env flags args = .error msg := by
  by_cases hargs : args.isEmpty
  · exact ⟨"usage", by rw [runProgram, if_pos hargs]⟩
  · rw [runProgram, if_neg hargs]
    rcases hl : env.loadErr with _ | e
    · rcases hfail with hbad | hbad
      · exact absurd hl hbad
      · obtain ⟨msg, hmsg⟩ := resolveAll_error_of_bad env pairs hbad
        refine ⟨msg, ?_⟩
        simp only [hp, hl, hmsg, Bind.bind, Except.bind]
    · refine ⟨"Error loading packages: " ++ e, ?_⟩
      simp only [hp, hl, Bind.bind, Except.bind]

/-- Witness for claim C6: a lookup that fails (unknown package) makes the
concrete run end in a fatal error. -/
theorem runProgram_fatal_on_resolution_failure_witness :
    ∃ msg, runProgram envW ⟨false, false, false⟩ ["nosuch.T"] = .error msg :=
  runProgram_fatal_on_resolution_failure envW ⟨false, false, false⟩ ["nosuch.T"]
    [("nosuch", "T")] rfl
    (Or.inr ⟨("nosuch", "T"), by decide, fun t ht => by
      have h0 : envW.lookup "nosuch" "T" = ResolveOutcome.missing := by decide
      rw [h0] at ht
      exact ResolveOutcome.noConfusion ht⟩)

/-- Claim C7: on a successful run with the `-header` flag set, the output
starts with the comment line `// Common interface of` followed by exactly
one comment line per listed (pointer-normalized) type, in argument order;
a pointer type is printed in its value form exactly when the value form
already implements the computed interface (`headerEntryType`). -/
theorem runProgram_header_structure (env : Env) (flags : Flags) (args : List String)
    (pairs : List (String × String)) (typs : List GoType)
    (hne : args ≠ [])
    (hp : parseArgs args = .ok pairs)
    (hl : env.loadErr = none)
    (hr : resolveAll env pairs = .ok typs)
    (hh : flags.header = true) :
    runProgram env flags args =
      .ok ("// Common interface of\n"
          ++ concatStrs
            ((typs.map normalizeType).map fun t =>
              "// " ++ env.typeStr
                  (headerEntryType env.msOf
                    (ifaceMethods (commonOf flags.priv env.msOf typs)) t)
                ++ "\n")
          ++ bodyText env flags (commonOf flags.priv env.msOf typs)) := by
  have hargs : args.isEmpty = false := by
    cases args with
    | nil => exact absurd rfl hne
    | cons a l => rfl
  rw [runProgram, if_neg (by rw [hargs]; exact Bool.false_ne_true)]
  simp only [hp, hl, hr, Bind.bind, Except.bind]
  rw [headerText, if_pos hh]
  rw [Except.ok.injEq]
  simp only [List.map_cons, List.map_map, concatStrs, Function.comp]
  rw [String.append_assoc]
  rfl

/-- Witness for claim C7: a concrete run with the `-header` flag produces
the header block followed by the interface body. -/
theorem runProgram_header_structure_witness :
    runProgram envW ⟨false, true, false⟩ ["bytes.Reader", "bufio.Reader"] =
      .ok ("// Common interface of\n"
          ++ concatStrs
            (([GoType.named 0 false, GoType.named 1 false].map normalizeType).map fun t =>
              "// " ++ envW.typeStr
                  (headerEntryType envW.msOf
                    (ifaceMethods (commonOf false envW.msOf
                      [GoType.named 0 false, GoType.named 1 false])) t)
                ++ "\n")
          ++ bodyText envW ⟨false, true, false⟩
            (commonOf false envW.msOf [GoType.named 0 false, GoType.named 1 false])) :=
  runProgram_header_structure envW ⟨false, true, false⟩ ["bytes.Reader", "bufio.Reader"]
    [("bytes", "Reader"), ("bufio", "Reader")]
    [GoType.named 0 false, GoType.named 1 false]
    (by decide) rfl rfl rfl rfl

/-! ## Lexicographic-order lemmas -/

theorem listLt_irrefl : ∀ l : List Char, listLt l l = false := by
  intro l
  induction l with
  | nil => rfl
  | cons a as ih =>
    rw [listLt, if_pos rfl]
    exact ih

theorem listLt_trans :
    ∀ a b c : List Char, listLt a b = true → listLt b c = true → listLt a c = true := by
  intro a
  induction a with
  | nil =>
    intro b c h1 h2
    cases b with
    | nil => exact absurd h1 (by rw [listLt]; exact Bool.false_ne_true)
    | cons y ys =>
      cases c with
      | nil => exact absurd h2 (by rw [listLt]; exact Bool.false_ne_true)
      | cons z zs => rfl
  | cons x xs ih =>
    intro b c h1 h2
    cases b with
    | nil => exact absurd h1 (by rw [listLt]; exact Bool.false_ne_true)
    | cons y ys =>
      cases c with
      | nil => exact absurd h2 (by rw [listLt]; exact Bool.false_ne_true)
      | cons z zs =>
        rw [listLt] at h1 h2 ⊢
        by_cases hxy : x = y
        · rw [if_pos hxy] at h1
          by_cases hyz : y = z
          · rw [if_pos hyz] at h2
            rw [if_pos (hxy.trans hyz)]
            exact ih ys zs h1 h2
          · rw [if_neg hyz] at h2
            rw [decide_eq_true_eq] at h2
            have hxz : x < z := hxy ▸ h2
            rw [if_neg (fun he => hyz (by rw [← hxy, he])), decide_eq_true_eq]
            exact hxz
        · rw [if_neg hxy, decide_eq_true_eq] at h1
          by_cases hyz : y = z
          · rw [if_neg (fun he => hxy (by rw [he, hyz])), decide_eq_true_eq]
            exact hyz ▸ h1
          · rw [if_neg hyz, decide_eq_true_eq] at h2
            have hxz : x < z := lt_trans h1 h2
            rw [if_neg (ne_of_lt hxz), decide_eq_true_eq]
            exact hxz

theorem listLt_connex :
    ∀ a b : List Char, a ≠ b → listLt a b = true ∨ listLt b a = true := by
  intro a
  induction a with
  | nil =>
    intro b hne
    cases b with
    | nil => exact absurd rfl hne
    | cons y ys => exact Or.inl rfl
  | cons x xs ih =>
    intro b hne
    cases b with
    | nil => exact Or.inr rfl
    | cons y ys =>
      by_cases hxy : x = y
      · subst hxy
        have hne2 : xs ≠ ys := fun he => hne (by rw [he])
        rcases ih ys hne2 with h | h
        · exact Or.inl (by rw [listLt, if_pos rfl]; exact h)
        · exact Or.inr (by rw [listLt, if_pos rfl]; exact h)
      · rcases lt_or_gt_of_ne hxy with h | h
        · exact Or.inl (by rw [listLt, if_neg hxy, decide_eq_true_eq]; exact h)
        · exact Or.inr (by
            rw [listLt, if_neg (fun he => hxy he.symm), decide_eq_true_eq]
            exact h)

theorem listLt_asymm (a b : List Char) (h : listLt a b = true) : listLt b a = false := by
  by_contra hc
  rw [Bool.not_eq_false] at hc
  have := listLt_trans a b a h hc
  rw [listLt_irrefl] at this
  exact Bool.false_ne_true this

theorem strLt_of_le_ne (a b : String) (hle : strLe a b = true) (hne : a ≠ b) :
    strLt a b = true := by
  rw [strLe, Bool.not_eq_eq_eq_not, Bool.not_true] at hle
  have hd : a.data ≠ b.data := fun he => hne (String.ext he)
  rcases listLt_connex a.data b.data hd with h | h
  · exact h
  · rw [strLt] at hle
    rw [hle] at h
    exact absurd h Bool.false_ne_true

theorem strLe_total : ∀ a b : String, strLe a b = true ∨ strLe b a = true := by
  intro a b
  rw [strLe, strLe, Bool.not_eq_eq_eq_not, Bool.not_true, Bool.not_eq_eq_eq_not, Bool.not_true]
  by_cases h : strLt b a = true
  · refine Or.inr ?_
    rw [strLt] at h ⊢
    exact listLt_asymm _ _ h
  · exact Or.inl (Bool.eq_false_iff.mpr h)

theorem strLe_trans :
    ∀ a b c : String, strLe a b = true → strLe b c = true → strLe a c = true := by
  intro a b c h1 h2
  rw [strLe, Bool.not_eq_eq_eq_not, Bool.not_true] at h1 h2 ⊢
  rw [strLt] at h1 h2 ⊢
  by_contra hc
  have hca : listLt c.data a.data = true := by
    rcases hh : listLt c.data a.data with _ | _
    · exact absurd hh hc
    · rfl
  by_cases hcb : c.data = b.data
  · rw [hcb] at hca
    rw [hca] at h1
    exact Bool.true_eq_false ▸ h1
  · rcases listLt_connex c.data b.data hcb with h | h
    · rw [h] at h2
      exact Bool.noConfusion h2
    · have := listLt_trans b.data c.data a.data h hca
      rw [this] at h1
      exact Bool.noConfusion h1

theorem pairwise_lt_of_le_nodup :
    ∀ l : List String,
      List.Pairwise (fun a b => strLe a b = true) l → l.Nodup →
      List.Pairwise (fun a b => strLt a b = true) l := by
  intro l
  induction l with
  | nil =>
    intro _ _
    exact List.Pairwise.nil
  | cons a l ih =>
    intro hle hnd
    rw [List.pairwise_cons] at hle ⊢
    rw [List.nodup_cons] at hnd
    refine ⟨fun b hb => strLt_of_le_ne a b (hle.1 b hb) fun he => hnd.1 (he ▸ hb), ?_⟩
    exact ih hle.2 hnd.2

/-- Claim C9: the printed method names — the sorted key list of the common
map the rendering loop iterates over — are in strictly ascending
lexicographic order, for every input. -/
theorem sortedNames_strict (priv : Bool) (msOf : GoType → List MethodSel)
    (typs : List GoType) :
    List.Sorted (fun a b => strLt a b = true)
      (sortedNames (commonOf priv msOf typs)) := by
  haveI hT : IsTotal String (fun a b => strLe a b = true) := ⟨strLe_total⟩
  haveI hTr : IsTrans String (fun a b => strLe a b = true) := ⟨strLe_trans⟩
  have hnd : ((commonOf priv msOf typs).map (·.1)).Nodup :=
    nodup_keys_commonOf priv msOf typs
  have hs : List.Sorted (fun a b => strLe a b = true)
      (sortedNames (commonOf priv msOf typs)) :=
    List.sorted_insertionSort _ _
  have hperm := List.perm_insertionSort (fun a b => strLe a b = true)
    ((commonOf priv msOf typs).map (·.1))
  have hnd2 : (sortedNames (commonOf priv msOf typs)).Nodup :=
    (hperm.nodup_iff).mpr hnd
  exact pairwise_lt_of_le_nodup _ hs hnd2

/-! ## Relating the current and the old program versions -/

theorem minsertOld_map (k : String) (s : Sig) (o : Nat) :
    ∀ m : Smap,
      minsertOld (m.map fun e => (e.1, e.2.Signature)) k s =
        (minsert m k ⟨s, o⟩).map fun e => (e.1, e.2.Signature) := by
  intro m
  induction m with
  | nil => rfl
  | cons e rest ih =>
    obtain ⟨k0, v0⟩ := e
    by_cases h : k0 = k
    · rw [List.map_cons, minsertOld, if_pos h, minsert, if_pos h, List.map_cons]
    · rw [List.map_cons, minsertOld, if_neg h, minsert, if_neg h, List.map_cons, ih]

theorem sigsOfOld_foldl_map (priv : Bool) :
    ∀ (ms : List MethodSel) (m : Smap),
      ms.foldl
          (fun m2 meth =>
            if priv || isExported meth.name then minsertOld m2 meth.name meth.sig else m2)
          (m.map fun e => (e.1, e.2.Signature)) =
        (ms.foldl (sigsStep priv) m).map fun e => (e.1, e.2.Signature) := by
  intro ms
  induction ms with
  | nil => intro m; rfl
  | cons meth ms ih =>
    intro m
    rw [List.foldl_cons, List.foldl_cons]
    by_cases hc : (priv || isExported meth.name) = true
    · rw [if_pos hc, minsertOld_map meth.name meth.sig meth.obj m, sigsStep, if_pos hc]
      exact ih _
    · rw [if_neg hc, sigsStep, if_neg hc]
      exact ih _

theorem sigsOfOld_eq (priv : Bool) (ms : List MethodSel) :
    sigsOfOld priv ms = (sigsOf priv ms).map fun e => (e.1, e.2.Signature) := by
  have h := sigsOfOld_foldl_map priv ms []
  rw [List.map_nil] at h
  exact h

theorem lookup_map_sig (k : String) :
    ∀ m : Smap,
      (m.map fun e => (e.1, e.2.Signature)).lookup k = (m.lookup k).map (·.Signature) := by
  intro m
  induction m with
  | nil => rfl
  | cons e rest ih =>
    obtain ⟨k0, v0⟩ := e
    rw [List.map_cons, lookup_cons_eq, lookup_cons_eq]
    by_cases h : k = k0
    · rw [if_pos h, if_pos h]
      rfl
    · rw [if_neg h, if_neg h, ih]

theorem intersectStepOld_map (com s : Smap) :
    intersectStepOld (com.map fun e => (e.1, e.2.Signature))
        (s.map fun e => (e.1, e.2.Signature)) =
      (intersectStep com s).map fun e => (e.1, e.2.Signature) := by
  rw [intersectStepOld, intersectStep, List.filter_map]
  congr 1
  apply List.filter_congr
  intro e he
  simp only [Function.comp_apply, lookup_map_sig]
  rcases s.lookup e.1 with _ | sv
  · rfl
  · rfl

theorem commonOfOld_foldl_map (priv : Bool) (msOf : GoType → List MethodSel) :
    ∀ (ts : List GoType) (com : Smap),
      ts.foldl
          (fun c t2 => intersectStepOld c (sigsOfOld priv (msOf (normalizeType t2))))
          (com.map fun e => (e.1, e.2.Signature)) =
        (ts.foldl (fun c t2 => intersectStep c (sigsOf priv (msOf (normalizeType t2)))) com).map
          fun e => (e.1, e.2.Signature) := by
  intro ts
  induction ts with
  | nil => intro com; rfl
  | cons t ts ih =>
    intro com
    rw [List.foldl_cons, List.foldl_cons, sigsOfOld_eq, intersectStepOld_map]
    exact ih _

theorem commonOfOld_map (priv : Bool) (msOf : GoType → List MethodSel)
    (typs : List GoType) :
    commonOfOld priv msOf typs =
      (commonOf priv msOf typs).map fun e => (e.1, e.2.Signature) := by
  match typs with
  | [] => rfl
  | t :: ts =>
    have h := commonOfOld_foldl_map priv msOf ts (sigsOf priv (msOf (normalizeType t)))
    rw [commonOfOld, commonOf, sigsOfOld_eq]
    exact h

theorem listLt_append_left (x y : List Char) :
    ∀ p : List Char, listLt (p ++ x) (p ++ y) = listLt x y := by
  intro p
  induction p with
  | nil => rfl
  | cons a p ih =>
    rw [List.cons_append, List.cons_append, listLt, if_pos rfl]
    exact ih

theorem upper_lt_of_underscore_le (c d : Char) (hc : c.isUpper = true) (hd : '_' ≤ d) :
    c < d := by
  rw [Char.isUpper, Bool.and_eq_true] at hc
  have hcz : c ≤ 'Z' := of_decide_eq_true hc.2
  have hz : ('Z' : Char) < '_' := by decide
  exact lt_of_le_of_lt hcz (lt_of_lt_of_le hz hd)

theorem data_underscore_dot (s : String) : ("_." ++ s).data = '_' :: '.' :: s.data := by
  simp [String.data_append]

theorem mid_char_facts (c : Char) (h1 : '_' ≤ c) (h2 : c ≤ 'z') :
    c.isUpper = false ∧ isUpperGo c = false := by
  have hZ : ('Z' : Char) < '_' := by decide
  have hnotZ : ¬(c ≤ 'Z') := not_le.mpr (lt_of_lt_of_le hZ h1)
  have hcU : c.isUpper = false := by
    have hd90 : decide (c.val ≤ 90) = false := decide_eq_false hnotZ
    rw [Char.isUpper, hd90, Bool.and_false]
  refine ⟨hcU, ?_⟩
  have hnotA : ¬(('À' : Char) ≤ c) :=
    not_le.mpr (lt_of_le_of_lt h2 (by decide : ('z' : Char) < 'À'))
  have hnotO : ¬(('Ø' : Char) ≤ c) :=
    not_le.mpr (lt_of_le_of_lt h2 (by decide : ('z' : Char) < 'Ø'))
  rw [isUpperGo, hcU, decide_eq_false hnotA, decide_eq_false hnotO]
  rfl

theorem ascii_start_dichotomy (s : String) (h : asciiIdentStart s = true) :
    ∃ c cs, s.data = c :: cs ∧
      ((c.isUpper = true ∧ isExported s = true) ∨
        ('_' ≤ c ∧ isExported s = false)) := by
  rcases hd : s.data with _ | ⟨c, cs⟩
  · rw [asciiIdentStart, hd] at h
    exact Bool.noConfusion h
  · refine ⟨c, cs, rfl, ?_⟩
    rw [asciiIdentStart, hd, Bool.or_eq_true] at h
    rcases h with h | h
    · refine Or.inl ⟨h, ?_⟩
      rw [isExported, hd]
      show isUpperGo c = true
      rw [isUpperGo, h]
      rfl
    · rw [Bool.and_eq_true, decide_eq_true_eq, decide_eq_true_eq] at h
      refine Or.inr ⟨h.1, ?_⟩
      rw [isExported, hd]
      exact (mid_char_facts c h.1 h.2).2

theorem idOf_strLt (a b : String) (ha : asciiIdentStart a = true)
    (hb : asciiIdentStart b = true) :
    strLt (idOf a) (idOf b) = strLt a b := by
  obtain ⟨ca, as, hda, hca⟩ := ascii_start_dichotomy a ha
  obtain ⟨cb, bs, hdb, hcb⟩ := ascii_start_dichotomy b hb
  rcases hca with ⟨hua, hea⟩ | ⟨hua, hea⟩
  · rcases hcb with ⟨hub, heb⟩ | ⟨hub, heb⟩
    · -- both exported
      rw [idOf, hea, if_pos rfl, idOf, heb, if_pos rfl]
    · -- a exported, b unexported: both comparisons are true
      have hlt : ca < cb := upper_lt_of_underscore_le ca cb hua hub
      have hcau : ca < '_' := upper_lt_of_underscore_le ca '_' hua le_rfl
      rw [idOf, hea, if_pos rfl, idOf, heb, if_neg Bool.false_ne_true]
      rw [strLt, strLt, data_underscore_dot, hda, hdb]
      have h1 : listLt (ca :: as) ('_' :: '.' :: cb :: bs) = true := by
        rw [listLt]
        rw [if_neg (fun he => absurd (he ▸ hcau) (lt_irrefl _)), decide_eq_true_eq]
        exact hcau
      have h2 : listLt (ca :: as) (cb :: bs) = true := by
        rw [listLt]
        rw [if_neg (fun he => absurd (he ▸ hlt) (lt_irrefl _)), decide_eq_true_eq]
        exact hlt
      rw [h1, h2]
  · rcases hcb with ⟨hub, heb⟩ | ⟨hub, heb⟩
    · -- a unexported, b exported: both comparisons are false
      have hlt : cb < ca := upper_lt_of_underscore_le cb ca hub hua
      have hcbu : cb < '_' := upper_lt_of_underscore_le cb '_' hub le_rfl
      rw [idOf, hea, if_neg Bool.false_ne_true, idOf, heb, if_pos rfl]
      rw [strLt, strLt, data_underscore_dot, hda, hdb]
      have h1 : listLt ('_' :: '.' :: ca :: as) (cb :: bs) = false := by
        rw [listLt]
        rw [if_neg (Ne.symm (ne_of_lt hcbu)), decide_eq_false_iff_not]
        intro hlt2
        exact absurd (lt_trans hcbu hlt2) (lt_irrefl _)
      have h2 : listLt (ca :: as) (cb :: bs) = false := by
        rw [listLt]
        rw [if_neg (fun he => absurd (he ▸ hlt) (lt_irrefl _)), decide_eq_false_iff_not]
        intro hlt2
        exact absurd (lt_trans hlt hlt2) (lt_irrefl _)
      rw [h1, h2]
    · -- both unexported: prefix both with "_."
      rw [idOf, hea, if_neg Bool.false_ne_true, idOf, heb, if_neg Bool.false_ne_true]
      rw [strLt, data_underscore_dot, data_underscore_dot]
      have := listLt_append_left a.data b.data ['_', '.']
      simpa using this
theorem idOf_strLe (a b : String) (ha : asciiIdentStart a = true)
    (hb : asciiIdentStart b = true) :
    strLe (idOf a) (idOf b) = strLe a b := by
  rw [strLe, strLe, idOf_strLt b a hb ha]

theorem strLe_antisymm (a b : String) (h1 : strLe a b = true) (h2 : strLe b a = true) :
    a = b := by
  by_contra hne
  rw [strLe, Bool.not_eq_eq_eq_not, Bool.not_true] at h1 h2
  have hd : a.data ≠ b.data := fun he => hne (String.ext he)
  rcases listLt_connex a.data b.data hd with h | h
  · rw [strLt] at h2
    rw [h] at h2
    exact Bool.noConfusion h2
  · rw [strLt] at h1
    rw [h] at h1
    exact Bool.noConfusion h1

theorem pairwise_transport {r s : String → String → Prop} :
    ∀ l : List String, (∀ a b, a ∈ l → b ∈ l → r a b → s a b) →
      List.Pairwise r l → List.Pairwise s l := by
  intro l
  induction l with
  | nil =>
    intro _ _
    exact List.Pairwise.nil
  | cons a l ih =>
    intro himp hp
    rw [List.pairwise_cons] at hp ⊢
    refine ⟨fun b hb =>
      himp a b (List.mem_cons_self _ _) (List.mem_cons_of_mem _ hb) (hp.1 b hb), ?_⟩
    exact ih (fun x y hx hy => himp x y (List.mem_cons_of_mem _ hx) (List.mem_cons_of_mem _ hy))
      hp.2

theorem sortedNamesOld_eq (m : Smap)
    (hvalid : ∀ k ∈ m.map (·.1), asciiIdentStart k = true) :
    sortedNamesOld (m.map fun e => (e.1, e.2.Signature)) = sortedNames m := by
  haveI hT : IsTotal String (fun a b => strLe a b = true) := ⟨strLe_total⟩
  haveI hTr : IsTrans String (fun a b => strLe a b = true) := ⟨strLe_trans⟩
  haveI hTI : IsTotal String (fun a b => strLe (idOf a) (idOf b) = true) :=
    ⟨fun a b => strLe_total (idOf a) (idOf b)⟩
  haveI hTrI : IsTrans String (fun a b => strLe (idOf a) (idOf b) = true) :=
    ⟨fun a b c => strLe_trans (idOf a) (idOf b) (idOf c)⟩
  haveI hAs : IsAntisymm String (fun a b => strLe a b = true) := ⟨strLe_antisymm⟩
  have hkeys : (m.map fun e => (e.1, e.2.Signature)).map (·.1) = m.map (·.1) := by
    rw [List.map_map]
    rfl
  rw [sortedNamesOld, sortedNames, hkeys]
  apply List.eq_of_perm_of_sorted (r := fun a b => strLe a b = true)
  · exact (List.perm_insertionSort _ _).trans (List.perm_insertionSort _ _).symm
  · have hs : List.Sorted (fun a b => strLe (idOf a) (idOf b) = true)
        (List.insertionSort (fun a b => strLe (idOf a) (idOf b) = true) (m.map (·.1))) :=
      List.sorted_insertionSort _ _
    refine pairwise_transport _ ?_ hs
    intro x y hx hy hr
    have hx2 : x ∈ m.map (·.1) := (List.mem_insertionSort _).mp hx
    have hy2 : y ∈ m.map (·.1) := (List.mem_insertionSort _).mp hy
    rw [idOf_strLe x y (hvalid x hx2) (hvalid y hy2)] at hr
    exact hr
  · exact List.sorted_insertionSort _ _

theorem renderedMethodsOld_eq (m : Smap)
    (hvalid : ∀ k ∈ m.map (·.1), asciiIdentStart k = true) :
    renderedMethodsOld (m.map fun e => (e.1, e.2.Signature)) = renderedMethods m := by
  rw [renderedMethodsOld, renderedMethods, sortedNamesOld_eq m hvalid]
  have hfun : (fun n => ((m.map fun e => (e.1, e.2.Signature)).lookup n).map fun s => (n, s)) =
      fun n => (m.lookup n).map fun v => (n, v.Signature) := by
    funext n
    rw [lookup_map_sig]
    rcases m.lookup n with _ | v
    · rfl
    · rfl
  rw [hfun]

/-- Counterexample to claim C10 as stated: one type with the methods
`Äpple` and `äpple` under `-private`. Both versions compute the same
common map, but `ast.IsExported("Äpple")` holds (`unicode.IsUpper` of
U+00C4), so the old version's `types.Object.Id`s are `Äpple` and
`_.äpple`, and its `types.NewInterface`-based rendering puts `äpple`
first, while the new version's `sort.Strings` rendering puts `Äpple`
(bytes C3 84 …) before `äpple` (C3 A4 …): the rendered bodies differ. -/
theorem versions_equivalent_counterexample :
    commonOfOld true msU [GoType.named 0 false] =
        (commonOf true msU [GoType.named 0 false]).map
          (fun e => (e.1, e.2.Signature)) ∧
      renderedMethodsOld (commonOfOld true msU [GoType.named 0 false]) =
        [("äpple", 2), ("Äpple", 1)] ∧
      renderedMethods (commonOf true msU [GoType.named 0 false]) =
        [("Äpple", 1), ("äpple", 2)] ∧
      renderedMethodsOld (commonOfOld true msU [GoType.named 0 false]) ≠
        renderedMethods (commonOf true msU [GoType.named 0 false]) := by
  decide

/-- Claim C10, amended: the two program versions always compute the same
common name-to-signature map (the old map is the new one with the stored
objects dropped); and they render the same ordered method list provided
every common method name starts with an ASCII identifier character — the
old version's `types.NewInterface` ordering (sorted by `Id`, computed with
a `nil` package) then agrees with the new version's `sort.Strings`
ordering. For names starting with non-ASCII letters the orderings can
differ (see the counterexample). -/
theorem versions_equivalent (priv : Bool) (msOf : GoType → List MethodSel)
    (typs : List GoType) :
    commonOfOld priv msOf typs =
        (commonOf priv msOf typs).map (fun e => (e.1, e.2.Signature)) ∧
      ((∀ k ∈ (commonOf priv msOf typs).map (·.1), asciiIdentStart k = true) →
        renderedMethodsOld (commonOfOld priv msOf typs) =
          renderedMethods (commonOf priv msOf typs)) := by
  have h1 := commonOfOld_map priv msOf typs
  refine ⟨h1, fun hvalid => ?_⟩
  rw [h1]
  exact renderedMethodsOld_eq _ hvalid

/-- Witness for claim C10: on a concrete type (with the `-private` flag
set, so an unexported ASCII name is also present), the common maps agree
and the renderings agree. -/
theorem versions_equivalent_witness :
    commonOfOld true msW [GoType.named 0 false, GoType.named 0 false] =
        (commonOf true msW [GoType.named 0 false, GoType.named 0 false]).map
          (fun e => (e.1, e.2.Signature)) ∧
      renderedMethodsOld (commonOfOld true msW [GoType.named 0 false, GoType.named 0 false]) =
        renderedMethods (commonOf true msW [GoType.named 0 false, GoType.named 0 false]) :=
  ⟨(versions_equivalent true msW [GoType.named 0 false, GoType.named 0 false]).1,
    (versions_equivalent true msW [GoType.named 0 false, GoType.named 0 false]).2 (by decide)⟩
